import Mathlib

/-!
Verification of the LSB-steganography core of the Image-Protector-App
(`main.py`): the bit codec (`bytes_to_bits` / `bits_to_bytes`), the XOR
stream cipher (`xor_cipher`), the sentinel-framed hide/extract pipeline
(`stego_hide` / `stego_extract`) and the LSB sanitiser (`clean_lsb`).

Python byte strings are modelled as `List Nat` with every element `< 256`;
Python text strings (`str`) as `List Nat` of Unicode scalar values.  A
carrier image (a PIL RGB image) is a width, a height and its pixels in
row-major order (y outer, x inner, top-left origin): the pixel at `(x, y)`
is `pix[y * width + x]`.  Each pixel is an `(r, g, b)` triple of channel
values.  Fallible operations return `Except`/`Option`; `stego_extract`'s
three outcomes (decoded text, "no hidden data", "wrong password or
corrupted data") are the constructors of `ExtractResult`.
-/

namespace ImageProtector

/-- An RGB pixel: (red, green, blue) channel values. -/
abbrev Pixel := Nat × Nat × Nat

/-- A carrier image: dimensions plus the pixels in row-major order
(y outer, x inner); `pix[y * width + x]` is the pixel at `(x, y)`. -/
structure Img where
  width : Nat
  height : Nat
  pix : List Pixel
deriving DecidableEq

/-- Well-formedness of the flat row-major pixel list: one pixel per
coordinate of the `width × height` grid. -/
def Img.WF (img : Img) : Prop := img.pix.length = img.width * img.height

instance (img : Img) : Decidable img.WF := by
  unfold Img.WF; infer_instance

/-- UTF-8 encoding of one Unicode scalar value (Python
`str.encode('utf-8')`, per character): 1 byte below U+0080, 2 bytes below
U+0800, 3 bytes below U+10000, 4 bytes above. -/
def utf8EncodeChar (c : Nat) : List Nat :=
  if c < 128 then [c]
  else if c < 2048 then [192 + c / 64, 128 + c % 64]
  else if c < 65536 then [224 + c / 4096, 128 + c / 64 % 64, 128 + c % 64]
  else [240 + c / 262144, 128 + c / 4096 % 64, 128 + c / 64 % 64, 128 + c % 64]

/-- UTF-8 encoding of a text (Python `text.encode('utf-8')`): the
concatenation of the per-character encodings. -/
def utf8Encode (s : List Nat) : List Nat := (s.map utf8EncodeChar).flatten

/-- A Unicode scalar value a Python `str` can UTF-8-encode: in range and
not a surrogate. -/
def ValidScalar (c : Nat) : Prop := c < 1114112 ∧ ¬(55296 ≤ c ∧ c < 57344)

instance (c : Nat) : Decidable (ValidScalar c) := by
  unfold ValidScalar; infer_instance

/-- Strict UTF-8 decoding (Python `bytes.decode('utf-8')`): `some` the
scalar values on a valid encoding, `none` (Python: `UnicodeDecodeError`)
on an invalid start byte, a bad or missing continuation byte, an overlong
encoding, a surrogate or an out-of-range value.  The patterns are split by
how many bytes are available, so each multi-byte form appears once per
sufficient length and truncated multi-byte forms fall out as `none`. -/
def utf8Decode : List Nat → Option (List Nat)
  | [] => some []
  | [b0] =>
    if b0 < 128 then (utf8Decode []).map (fun t => b0 :: t)
    else none
  | [b0, b1] =>
    if b0 < 128 then (utf8Decode [b1]).map (fun t => b0 :: t)
    else if b0 < 192 then none
    else if b0 < 224 then
      if 128 ≤ b1 ∧ b1 < 192 then
        if (b0 - 192) * 64 + (b1 - 128) < 128 then none
        else (utf8Decode []).map (fun t => ((b0 - 192) * 64 + (b1 - 128)) :: t)
      else none
    else none
  | [b0, b1, b2] =>
    if b0 < 128 then (utf8Decode [b1, b2]).map (fun t => b0 :: t)
    else if b0 < 192 then none
    else if b0 < 224 then
      if 128 ≤ b1 ∧ b1 < 192 then
        if (b0 - 192) * 64 + (b1 - 128) < 128 then none
        else (utf8Decode [b2]).map (fun t => ((b0 - 192) * 64 + (b1 - 128)) :: t)
      else none
    else if b0 < 240 then
      if (128 ≤ b1 ∧ b1 < 192) ∧ (128 ≤ b2 ∧ b2 < 192) then
        if (b0 - 224) * 4096 + (b1 - 128) * 64 + (b2 - 128) < 2048 ∨
           (55296 ≤ (b0 - 224) * 4096 + (b1 - 128) * 64 + (b2 - 128) ∧
            (b0 - 224) * 4096 + (b1 - 128) * 64 + (b2 - 128) < 57344) then none
        else (utf8Decode []).map
          (fun t => ((b0 - 224) * 4096 + (b1 - 128) * 64 + (b2 - 128)) :: t)
      else none
    else none
  | b0 :: b1 :: b2 :: b3 :: rest =>
    if b0 < 128 then (utf8Decode (b1 :: b2 :: b3 :: rest)).map (fun t => b0 :: t)
    else if b0 < 192 then none
    else if b0 < 224 then
      if 128 ≤ b1 ∧ b1 < 192 then
        if (b0 - 192) * 64 + (b1 - 128) < 128 then none
        else (utf8Decode (b2 :: b3 :: rest)).map
          (fun t => ((b0 - 192) * 64 + (b1 - 128)) :: t)
      else none
    else if b0 < 240 then
      if (128 ≤ b1 ∧ b1 < 192) ∧ (128 ≤ b2 ∧ b2 < 192) then
        if (b0 - 224) * 4096 + (b1 - 128) * 64 + (b2 - 128) < 2048 ∨
           (55296 ≤ (b0 - 224) * 4096 + (b1 - 128) * 64 + (b2 - 128) ∧
            (b0 - 224) * 4096 + (b1 - 128) * 64 + (b2 - 128) < 57344) then none
        else (utf8Decode (b3 :: rest)).map
          (fun t => ((b0 - 224) * 4096 + (b1 - 128) * 64 + (b2 - 128)) :: t)
      else none
    else if b0 < 248 then
      if (128 ≤ b1 ∧ b1 < 192) ∧ (128 ≤ b2 ∧ b2 < 192) ∧ (128 ≤ b3 ∧ b3 < 192) then
        if (b0 - 240) * 262144 + (b1 - 128) * 4096 + (b2 - 128) * 64 + (b3 - 128) < 65536 ∨
           1114112 ≤ (b0 - 240) * 262144 + (b1 - 128) * 4096 + (b2 - 128) * 64 + (b3 - 128)
        then none
        else (utf8Decode rest).map
          (fun t => ((b0 - 240) * 262144 + (b1 - 128) * 4096 + (b2 - 128) * 64 + (b3 - 128)) :: t)
      else none
    else none

/-- Repeating-key XOR, `main.py` line 45:
`bytes([a ^ b for a, b in zip(data, cycle(key))])` — position `i` of the
output is `data[i] ^ key[i % len(key)]`; `i` is the running index. -/
def xorKeyed (key : List Nat) : Nat → List Nat → List Nat
  | _, [] => []
  | i, a :: as => (a ^^^ key.getD (i % key.length) 0) :: xorKeyed key (i + 1) as

/-- `xor_cipher(data, password)` (`main.py` lines 31–45): identity when the
password is empty, otherwise XOR of the data against the UTF-8 encoding of
the password repeated cyclically. `data` is a byte sequence; `password` a
text (list of Unicode scalar values). -/
def xor_cipher (data : List Nat) (password : List Nat) : List Nat :=
  if password = [] then data
  else xorKeyed (utf8Encode password) 0 data

/-- The eight bits of a byte, most significant first
(`format(byte, '08b')` in `bytes_to_bits`; bytes are `< 256`). -/
def byteToBits (b : Nat) : List Nat :=
  [b / 128 % 2, b / 64 % 2, b / 32 % 2, b / 16 % 2,
   b / 8 % 2, b / 4 % 2, b / 2 % 2, b % 2]

/-- `bytes_to_bits(data)` (`main.py` lines 48–64): each byte contributes
its 8 bits, most significant first. -/
def bytes_to_bits (data : List Nat) : List Nat := (data.map byteToBits).flatten

/-- `bits_to_bytes(bits)` (`main.py` lines 67–87): groups the bits 8 at a
time in order, each group read as a most-significant-bit-first binary
numeral (`int(''.join(chunk), 2)`); a trailing group shorter than 8 bits
is dropped. -/
def bits_to_bytes : List Nat → List Nat
  | b0 :: b1 :: b2 :: b3 :: b4 :: b5 :: b6 :: b7 :: rest =>
    (((((((b0 * 2 + b1) * 2 + b2) * 2 + b3) * 2 + b4) * 2 + b5) * 2 + b6) * 2 + b7)
      :: bits_to_bytes rest
  | _ => []

/-- The stop marker `b'$STOP$'` of `stego_hide`/`stego_extract`. -/
def SENTINEL : List Nat := [36, 83, 84, 79, 80, 36]

/-- The embedding loop of `stego_hide` (`main.py` lines 239–247) on the
row-major pixel list: while bits remain, the next pixel's blue channel
becomes `(b & ~1) | bit` — the masked value is even and the bit is 0 or 1,
so the bitwise or is addition — and red/green are written back unchanged;
once the bits run out the remaining pixels are left as they are. -/
def embedBits : List Nat → List Pixel → List Pixel
  | _, [] => []
  | [], p :: pix => p :: pix
  | bit :: bits, (r, g, b) :: pix => (r, g, 2 * (b / 2) + bit) :: embedBits bits pix

/-- The reading loop of `stego_extract` (`main.py` lines 275–283) on the
row-major pixel list: collect `b & 1` of each pixel's blue channel in
order, stopping after `maxBits` bits or when the pixels run out. -/
def recoverBits : List Pixel → Nat → List Nat
  | [], _ => []
  | _ :: _, 0 => []
  | (_, _, b) :: pix, n + 1 => (b &&& 1) :: recoverBits pix n

/-- Position of the first occurrence of `pat` in `s`
(Python `s.find(pat)`; `pat in s` is `(findOcc pat s).isSome` and
`s.split(pat)[0]` is `s.take i` at that position). -/
def findOcc (pat : List Nat) : List Nat → Option Nat
  | [] => if pat = [] then some 0 else none
  | b :: rest =>
    if (b :: rest).take pat.length = pat then some 0
    else (findOcc pat rest).map (fun i => i + 1)

/-- The ciphered payload of `stego_hide` (`main.py` lines 224–226):
`data_bytes = secret_text.encode('utf-8')`, XOR-ciphered when a password
was given. -/
def payloadBytes (secret_text password : List Nat) : List Nat :=
  if password = [] then utf8Encode secret_text
  else xor_cipher (utf8Encode secret_text) password

/-- The capacity error of `stego_hide` (`main.py` line 237). -/
def capacityMsg : String := "Слишком большие данные для этого изображения."

/-- `stego_hide(input, output, secret_text, password)` (`main.py` lines
208–249) on the in-memory image: frame the (optionally ciphered) UTF-8
payload with the sentinel, expand to bits, fail with `ValueError` when the
bits outnumber the pixels (checked before the mutation loop), otherwise
write the bits into the blue LSBs in row-major order and return the
mutated image (which the Python then saves). -/
def stego_hide (img : Img) (secret_text password : List Nat) : Except String Img :=
  let bits := bytes_to_bits (payloadBytes secret_text password ++ SENTINEL)
  if bits.length > img.width * img.height then Except.error capacityMsg
  else Except.ok { img with pix := embedBits bits img.pix }

/-- The three result states of `stego_extract`: the decoded text, the
string `'Ошибка: Неправильный пароль или повреждённые данные.'`, or the
string `'Не найдено скрытых данных.'`. -/
inductive ExtractResult where
  | ok (text : List Nat)
  | wrongPassword
  | noData
deriving DecidableEq

/-- `stego_extract(input, password)` (`main.py` lines 252–297) on the
in-memory image: read at most `4096 * 8` blue LSBs in row-major order,
regroup them into bytes, and if the sentinel occurs take the prefix before
its first occurrence, un-cipher it when a password was given and decode it
as UTF-8 — a `UnicodeDecodeError` becomes the wrong-password result; when
the sentinel does not occur, the no-hidden-data result. -/
def stego_extract (img : Img) (password : List Nat) : ExtractResult :=
  let raw_data := bits_to_bytes (recoverBits img.pix (4096 * 8))
  match findOcc SENTINEL raw_data with
  | some i =>
    let secret_bytes := raw_data.take i
    match utf8Decode (if password = [] then secret_bytes
                      else xor_cipher secret_bytes password) with
    | some text => ExtractResult.ok text
    | none => ExtractResult.wrongPassword
  | none => ExtractResult.noData

/-- `clean_lsb(input, output)` (`main.py` lines 300–320) on the in-memory
image: every pixel's blue channel gets its lowest bit cleared
(`b & ~1`, i.e. `2 * (b / 2)`); red and green are written back unchanged. -/
def clean_lsb (img : Img) : Img :=
  { img with pix := img.pix.map (fun p => (p.1, p.2.1, 2 * (p.2.2 / 2))) }

/-! ### Bit-codec lemmas -/

theorem length_byteToBits (b : Nat) : (byteToBits b).length = 8 := rfl

theorem bytes_to_bits_nil : bytes_to_bits [] = [] := rfl

theorem bytes_to_bits_cons (x : Nat) (d : List Nat) :
    bytes_to_bits (x :: d) = byteToBits x ++ bytes_to_bits d := by
  simp [bytes_to_bits]

theorem length_bytes_to_bits (d : List Nat) :
    (bytes_to_bits d).length = 8 * d.length := by
  induction d with
  | nil => rfl
  | cons x d ih =>
    rw [bytes_to_bits_cons, List.length_append, ih, length_byteToBits,
      List.length_cons]
    ring

theorem mem_byteToBits_le_one (b : Nat) : ∀ v ∈ byteToBits b, v ≤ 1 := by
  intro v hv
  simp only [byteToBits, List.mem_cons, List.not_mem_nil, or_false] at hv
  rcases hv with h | h | h | h | h | h | h | h <;> subst h <;> omega

theorem mem_bytes_to_bits_le_one (d : List Nat) : ∀ v ∈ bytes_to_bits d, v ≤ 1 := by
  induction d with
  | nil => intro v hv; simp [bytes_to_bits_nil] at hv
  | cons x d ih =>
    intro v hv
    rw [bytes_to_bits_cons, List.mem_append] at hv
    rcases hv with h | h
    · exact mem_byteToBits_le_one x v h
    · exact ih v h

theorem bits_to_bytes_byteToBits_append (x : Nat) (t : List Nat) (hx : x < 256) :
    bits_to_bytes (byteToBits x ++ t) = x :: bits_to_bytes t := by
  simp only [byteToBits, List.cons_append, List.nil_append, bits_to_bytes,
    List.cons.injEq, and_true]
  constructor
  · omega
  · rfl

theorem bits_to_bytes_bytes_to_bits_append (d t : List Nat)
    (hd : ∀ b ∈ d, b < 256) :
    bits_to_bytes (bytes_to_bits d ++ t) = d ++ bits_to_bytes t := by
  induction d with
  | nil => simp [bytes_to_bits_nil]
  | cons x d ih =>
    rw [bytes_to_bits_cons, List.append_assoc,
      bits_to_bytes_byteToBits_append x _ (hd x (List.mem_cons_self x d)),
      ih (fun b hb => hd b (List.mem_cons_of_mem x hb)), List.cons_append]

theorem byteToBits_of_bits (b0 b1 b2 b3 b4 b5 b6 b7 : Nat)
    (h0 : b0 ≤ 1) (h1 : b1 ≤ 1) (h2 : b2 ≤ 1) (h3 : b3 ≤ 1)
    (h4 : b4 ≤ 1) (h5 : b5 ≤ 1) (h6 : b6 ≤ 1) (h7 : b7 ≤ 1) :
    byteToBits
      (((((((b0 * 2 + b1) * 2 + b2) * 2 + b3) * 2 + b4) * 2 + b5) * 2 + b6) * 2 + b7) =
      [b0, b1, b2, b3, b4, b5, b6, b7] := by
  simp only [byteToBits, List.cons.injEq, and_true]
  refine ⟨?_, ?_, ?_, ?_, ?_, ?_, ?_, ?_⟩ <;> omega

theorem bytes_to_bits_bits_to_bytes (bits : List Nat)
    (hb : ∀ v ∈ bits, v ≤ 1) (hlen : bits.length % 8 = 0) :
    bytes_to_bits (bits_to_bytes bits) = bits := by
  induction bits using bits_to_bytes.induct with
  | case1 b0 b1 b2 b3 b4 b5 b6 b7 rest ih =>
    have hmem : ∀ v ∈ rest, v ≤ 1 := by
      intro v hv
      exact hb v (by simp [hv])
    rw [bits_to_bytes, bytes_to_bits_cons,
      byteToBits_of_bits b0 b1 b2 b3 b4 b5 b6 b7
        (hb b0 (by simp)) (hb b1 (by simp)) (hb b2 (by simp)) (hb b3 (by simp))
        (hb b4 (by simp)) (hb b5 (by simp)) (hb b6 (by simp)) (hb b7 (by simp)),
      ih hmem (by simp only [List.length_cons] at hlen; omega)]
    rfl
  | case2 bits h =>
    have hshort : bits.length < 8 := by
      rcases bits with _ | ⟨a0, _ | ⟨a1, _ | ⟨a2, _ | ⟨a3, _ | ⟨a4, _ | ⟨a5, _ | ⟨a6, _ | ⟨a7, r⟩⟩⟩⟩⟩⟩⟩⟩
      all_goals first
        | exact absurd rfl (h a0 a1 a2 a3 a4 a5 a6 a7 r)
        | (simp only [List.length_cons, List.length_nil]; omega)
    have : bits.length = 0 := by omega
    have : bits = [] := List.length_eq_zero.mp this
    subst this
    rfl

/-! ### Cipher lemmas -/

theorem xorKeyed_length (key : List Nat) : ∀ (i : Nat) (data : List Nat),
    (xorKeyed key i data).length = data.length := by
  intro i data
  induction data generalizing i with
  | nil => rfl
  | cons a as ih => simp [xorKeyed, ih]

theorem xorKeyed_invol (key : List Nat) : ∀ (i : Nat) (data : List Nat),
    xorKeyed key i (xorKeyed key i data) = data := by
  intro i data
  induction data generalizing i with
  | nil => rfl
  | cons a as ih => simp [xorKeyed, ih, Nat.xor_cancel_right]

theorem xor_cipher_empty (data : List Nat) : xor_cipher data [] = data := rfl

theorem xor_cipher_invol (data password : List Nat) :
    xor_cipher (xor_cipher data password) password = data := by
  unfold xor_cipher
  by_cases h : password = []
  · simp [h]
  · simp [h, xorKeyed_invol]

theorem xor_cipher_length (data password : List Nat) :
    (xor_cipher data password).length = data.length := by
  unfold xor_cipher
  by_cases h : password = []
  · simp [h]
  · simp [h, xorKeyed_length]

/-! ### UTF-8 lemmas -/

theorem utf8Encode_nil : utf8Encode [] = [] := rfl

theorem utf8Encode_cons (c : Nat) (s : List Nat) :
    utf8Encode (c :: s) = utf8EncodeChar c ++ utf8Encode s := by
  simp [utf8Encode]

theorem utf8Decode_cons_low (b0 : Nat) (h : b0 < 128) (T : List Nat) :
    utf8Decode (b0 :: T) = (utf8Decode T).map (fun t => b0 :: t) := by
  rcases T with _ | ⟨t1, _ | ⟨t2, _ | ⟨t3, tt⟩⟩⟩ <;>
    (conv_lhs => rw [utf8Decode]) <;> rw [if_pos h]

theorem utf8Decode_cons_two (b0 b1 : Nat) (h0 : 192 ≤ b0) (h0h : b0 < 224)
    (h1 : 128 ≤ b1) (h1h : b1 < 192)
    (hv : 128 ≤ (b0 - 192) * 64 + (b1 - 128)) (T : List Nat) :
    utf8Decode (b0 :: b1 :: T) =
      (utf8Decode T).map (fun t => ((b0 - 192) * 64 + (b1 - 128)) :: t) := by
  rcases T with _ | ⟨t1, _ | ⟨t2, tt⟩⟩ <;>
    (conv_lhs => rw [utf8Decode]) <;>
    rw [if_neg (by omega), if_neg (by omega), if_pos (by omega),
      if_pos ⟨h1, h1h⟩, if_neg (by omega)]

theorem utf8Decode_cons_three (b0 b1 b2 : Nat) (h0 : 224 ≤ b0) (h0h : b0 < 240)
    (h1 : 128 ≤ b1) (h1h : b1 < 192) (h2 : 128 ≤ b2) (h2h : b2 < 192)
    (hv1 : 2048 ≤ (b0 - 224) * 4096 + (b1 - 128) * 64 + (b2 - 128))
    (hv2 : ¬(55296 ≤ (b0 - 224) * 4096 + (b1 - 128) * 64 + (b2 - 128) ∧
             (b0 - 224) * 4096 + (b1 - 128) * 64 + (b2 - 128) < 57344))
    (T : List Nat) :
    utf8Decode (b0 :: b1 :: b2 :: T) =
      (utf8Decode T).map
        (fun t => ((b0 - 224) * 4096 + (b1 - 128) * 64 + (b2 - 128)) :: t) := by
  rcases T with _ | ⟨t1, tt⟩ <;>
    (conv_lhs => rw [utf8Decode]) <;>
    rw [if_neg (by omega), if_neg (by omega), if_neg (by omega),
      if_pos (by omega), if_pos ⟨⟨h1, h1h⟩, h2, h2h⟩, if_neg (by omega)]

theorem utf8Decode_cons_four (b0 b1 b2 b3 : Nat) (h0 : 240 ≤ b0) (h0h : b0 < 248)
    (h1 : 128 ≤ b1) (h1h : b1 < 192) (h2 : 128 ≤ b2) (h2h : b2 < 192)
    (h3 : 128 ≤ b3) (h3h : b3 < 192)
    (hv1 : 65536 ≤ (b0 - 240) * 262144 + (b1 - 128) * 4096 + (b2 - 128) * 64 + (b3 - 128))
    (hv2 : (b0 - 240) * 262144 + (b1 - 128) * 4096 + (b2 - 128) * 64 + (b3 - 128) < 1114112)
    (T : List Nat) :
    utf8Decode (b0 :: b1 :: b2 :: b3 :: T) =
      (utf8Decode T).map
        (fun t =>
          ((b0 - 240) * 262144 + (b1 - 128) * 4096 + (b2 - 128) * 64 + (b3 - 128)) :: t) := by
  conv_lhs => rw [utf8Decode]
  rw [if_neg (by omega), if_neg (by omega), if_neg (by omega),
    if_neg (by omega), if_pos (by omega), if_pos ⟨⟨h1, h1h⟩, ⟨h2, h2h⟩, h3, h3h⟩,
    if_neg (by omega)]

theorem utf8Decode_encodeChar_append (c : Nat) (hc : ValidScalar c) (T : List Nat) :
    utf8Decode (utf8EncodeChar c ++ T) = (utf8Decode T).map (fun t => c :: t) := by
  obtain ⟨hlt, hsur⟩ := hc
  by_cases hA : c < 128
  · rw [utf8EncodeChar, if_pos hA]
    show utf8Decode (c :: T) = _
    rw [utf8Decode_cons_low c hA T]
  · by_cases hB : c < 2048
    · rw [utf8EncodeChar, if_neg hA, if_pos hB]
      show utf8Decode ((192 + c / 64) :: (128 + c % 64) :: T) = _
      rw [utf8Decode_cons_two _ _ (by omega) (by omega) (by omega) (by omega) (by omega) T]
      have hv : (192 + c / 64 - 192) * 64 + (128 + c % 64 - 128) = c := by omega
      rw [hv]
    · by_cases hC : c < 65536
      · rw [utf8EncodeChar, if_neg hA, if_neg hB, if_pos hC]
        show utf8Decode ((224 + c / 4096) :: (128 + c / 64 % 64) :: (128 + c % 64) :: T) = _
        rw [utf8Decode_cons_three _ _ _ (by omega) (by omega) (by omega) (by omega)
          (by omega) (by omega) (by omega) (by omega) T]
        have hv : (224 + c / 4096 - 224) * 4096 + (128 + c / 64 % 64 - 128) * 64 +
            (128 + c % 64 - 128) = c := by omega
        rw [hv]
      · rw [utf8EncodeChar, if_neg hA, if_neg hB, if_neg hC]
        show utf8Decode ((240 + c / 262144) :: (128 + c / 4096 % 64) ::
          (128 + c / 64 % 64) :: (128 + c % 64) :: T) = _
        rw [utf8Decode_cons_four _ _ _ _ (by omega) (by omega) (by omega) (by omega)
          (by omega) (by omega) (by omega) (by omega) (by omega) (by omega) T]
        have hv : (240 + c / 262144 - 240) * 262144 + (128 + c / 4096 % 64 - 128) * 4096 +
            (128 + c / 64 % 64 - 128) * 64 + (128 + c % 64 - 128) = c := by omega
        rw [hv]

theorem utf8Decode_utf8Encode (s : List Nat) (hs : ∀ c ∈ s, ValidScalar c) :
    utf8Decode (utf8Encode s) = some s := by
  induction s with
  | nil => rfl
  | cons c cs ih =>
    rw [utf8Encode_cons, utf8Decode_encodeChar_append c (hs c (List.mem_cons_self c cs)),
      ih (fun x hx => hs x (List.mem_cons_of_mem c hx))]
    rfl

theorem utf8EncodeChar_lt_256 (c : Nat) (hc : ValidScalar c) :
    ∀ b ∈ utf8EncodeChar c, b < 256 := by
  obtain ⟨hlt, -⟩ := hc
  intro b hb
  unfold utf8EncodeChar at hb
  split_ifs at hb with h1 h2 h3
  · simp only [List.mem_cons, List.not_mem_nil, or_false] at hb
    omega
  · simp only [List.mem_cons, List.not_mem_nil, or_false] at hb
    rcases hb with rfl | rfl <;> omega
  · simp only [List.mem_cons, List.not_mem_nil, or_false] at hb
    rcases hb with rfl | rfl | rfl <;> omega
  · simp only [List.mem_cons, List.not_mem_nil, or_false] at hb
    rcases hb with rfl | rfl | rfl | rfl <;> omega

theorem utf8Encode_lt_256 (s : List Nat) (hs : ∀ c ∈ s, ValidScalar c) :
    ∀ b ∈ utf8Encode s, b < 256 := by
  intro b hb
  simp only [utf8Encode, List.mem_flatten, List.mem_map] at hb
  obtain ⟨l, ⟨c, hcmem, rfl⟩, hbl⟩ := hb
  exact utf8EncodeChar_lt_256 c (hs c hcmem) b hbl

theorem xorKeyed_lt_256 (key : List Nat) (hkey : ∀ b ∈ key, b < 256) :
    ∀ (data : List Nat), (∀ b ∈ data, b < 256) →
      ∀ (i : Nat), ∀ b ∈ xorKeyed key i data, b < 256 := by
  intro data
  induction data with
  | nil => intro _ i b hb; simp [xorKeyed] at hb
  | cons a as ih =>
    intro hdata i b hb
    rw [xorKeyed] at hb
    rcases List.mem_cons.mp hb with rfl | hmem
    · have ha : a < 256 := hdata a (List.mem_cons_self a as)
      have hk : key.getD (i % key.length) 0 < 256 := by
        by_cases hl : i % key.length < key.length
        · rw [List.getD_eq_getElem key 0 hl]
          exact hkey _ (List.getElem_mem hl)
        · rw [List.getD_eq_default]
          · omega
          · omega
      have e : (256 : Nat) = 2 ^ 8 := by norm_num
      rw [e] at ha hk ⊢
      exact Nat.xor_lt_two_pow ha hk
    · exact ih (fun x hx => hdata x (List.mem_cons_of_mem a hx)) (i + 1) b hmem

theorem payloadBytes_lt_256 (s k : List Nat) (hs : ∀ c ∈ s, ValidScalar c)
    (hk : ∀ c ∈ k, ValidScalar c) :
    ∀ b ∈ payloadBytes s k, b < 256 := by
  unfold payloadBytes xor_cipher
  by_cases hke : k = []
  · rw [if_pos hke]
    exact utf8Encode_lt_256 s hs
  · rw [if_neg hke, if_neg hke]
    exact xorKeyed_lt_256 (utf8Encode k) (utf8Encode_lt_256 k hk)
      (utf8Encode s) (utf8Encode_lt_256 s hs) 0

theorem framed_lt_256 (s k : List Nat) (hs : ∀ c ∈ s, ValidScalar c)
    (hk : ∀ c ∈ k, ValidScalar c) :
    ∀ b ∈ payloadBytes s k ++ SENTINEL, b < 256 := by
  intro b hb
  rcases List.mem_append.mp hb with h | h
  · exact payloadBytes_lt_256 s k hs hk b h
  · simp only [SENTINEL, List.mem_cons, List.not_mem_nil, or_false] at h
    rcases h with rfl | rfl | rfl | rfl | rfl | rfl <;> omega

/-! ### Embedding and recovery lemmas -/

theorem embedBits_length (bits : List Nat) (pix : List Pixel) :
    (embedBits bits pix).length = pix.length := by
  induction bits, pix using embedBits.induct with
  | case1 bits => simp [embedBits]
  | case2 p pix => rfl
  | case3 bit bits r g b pix ih => simp [embedBits, ih]

theorem embedBits_getD_of_le (bits : List Nat) (pix : List Pixel) :
    ∀ (i : Nat) (d : Pixel), bits.length ≤ i →
      (embedBits bits pix).getD i d = pix.getD i d := by
  induction bits, pix using embedBits.induct with
  | case1 bits => intro i d _; simp [embedBits]
  | case2 p pix => intro i d _; rfl
  | case3 bit bits r g b pix ih =>
    intro i d h
    cases i with
    | zero => simp at h
    | succ i =>
      rw [embedBits, List.getD_cons_succ, List.getD_cons_succ]
      exact ih i d (by simpa using h)

theorem embedBits_getD_of_lt (bits : List Nat) (pix : List Pixel) :
    ∀ (i : Nat) (d : Pixel), i < bits.length → i < pix.length →
      ((embedBits bits pix).getD i d).1 = (pix.getD i d).1 ∧
      ((embedBits bits pix).getD i d).2.1 = (pix.getD i d).2.1 ∧
      ((embedBits bits pix).getD i d).2.2 =
        2 * ((pix.getD i d).2.2 / 2) + bits.getD i 0 := by
  induction bits, pix using embedBits.induct with
  | case1 bits => intro i d _ hp; simp at hp
  | case2 p pix => intro i d hb _; simp at hb
  | case3 bit bits r g b pix ih =>
    intro i d hb hp
    cases i with
    | zero => simp [embedBits, List.getD_cons_zero]
    | succ i =>
      rw [embedBits, List.getD_cons_succ, List.getD_cons_succ, List.getD_cons_succ]
      exact ih i d (by simpa using hb) (by simpa using hp)

theorem map_lsb_embedBits (bits : List Nat) (pix : List Pixel)
    (hb : ∀ v ∈ bits, v ≤ 1) :
    (embedBits bits pix).map (fun p => p.2.2 &&& 1) =
      bits.take pix.length ++ (pix.drop bits.length).map (fun p => p.2.2 &&& 1) := by
  induction bits, pix using embedBits.induct with
  | case1 bits => simp [embedBits]
  | case2 p pix => simp [embedBits]
  | case3 bit bits r g b pix ih =>
    have hbit : bit ≤ 1 := hb bit (List.mem_cons_self bit bits)
    have hlsb : (2 * (b / 2) + bit) &&& 1 = bit := by
      rw [Nat.and_one_is_mod]; omega
    simp only [embedBits, List.map_cons, List.length_cons, List.take_succ_cons,
      List.drop_succ_cons, hlsb, List.cons_append, List.cons.injEq, true_and]
    exact ih (fun v hv => hb v (List.mem_cons_of_mem bit hv))

theorem recoverBits_eq_take_map (pix : List Pixel) :
    ∀ n : Nat, recoverBits pix n = (pix.take n).map (fun p => p.2.2 &&& 1) := by
  induction pix with
  | nil => intro n; simp [recoverBits]
  | cons p pix ih =>
    intro n
    cases n with
    | zero => rfl
    | succ n =>
      obtain ⟨r, g, b⟩ := p
      rw [recoverBits, List.take_succ_cons, List.map_cons, ih n]

theorem recoverBits_length (pix : List Pixel) (n : Nat) :
    (recoverBits pix n).length = min n pix.length := by
  rw [recoverBits_eq_take_map, List.length_map, List.length_take]

theorem recoverBits_getD (pix : List Pixel) :
    ∀ (n i : Nat), i < min n pix.length →
      (recoverBits pix n).getD i 0 = (pix.getD i (0, 0, 0)).2.2 % 2 := by
  induction pix with
  | nil => intro n i hi; simp at hi
  | cons p pixt ih =>
    intro n i hi
    cases n with
    | zero => simp at hi
    | succ n =>
      obtain ⟨r, g, b⟩ := p
      cases i with
      | zero => rw [recoverBits]; simp [List.getD_cons_zero, Nat.and_one_is_mod]
      | succ i =>
        rw [recoverBits, List.getD_cons_succ, List.getD_cons_succ]
        refine ih n i ?_
        simp only [List.length_cons] at hi
        omega

/-! ### First-occurrence lemmas -/

theorem findOcc_eq_some (pat s : List Nat) (hpat : pat ≠ []) :
    ∀ i : Nat, (s.drop i).take pat.length = pat →
      (∀ j, j < i → (s.drop j).take pat.length ≠ pat) →
      findOcc pat s = some i := by
  induction s with
  | nil =>
    intro i hmatch _
    rw [List.drop_nil, List.take_nil] at hmatch
    exact absurd hmatch.symm hpat
  | cons b rest ih =>
    intro i hmatch hbefore
    cases i with
    | zero =>
      rw [List.drop_zero] at hmatch
      unfold findOcc
      rw [if_pos hmatch]
    | succ i =>
      have h0 : (b :: rest).take pat.length ≠ pat := by
        have := hbefore 0 (Nat.succ_pos i)
        rwa [List.drop_zero] at this
      unfold findOcc
      rw [if_neg h0, ih i (by rwa [List.drop_succ_cons] at hmatch)
        (fun j hj => by
          have := hbefore (j + 1) (by omega)
          rwa [List.drop_succ_cons] at this)]
      rfl

theorem take_drop_append_of_le (base rest : List Nat) (j n : Nat)
    (h : j + n ≤ base.length) :
    ((base ++ rest).drop j).take n = (base.drop j).take n := by
  rw [List.drop_append_eq_append_drop, Nat.sub_eq_zero_of_le (by omega),
    List.drop_zero, List.take_append_eq_append_take,
    Nat.sub_eq_zero_of_le (by rw [List.length_drop]; omega), List.take_zero,
    List.append_nil]

/-! ### All-zero-stream lemmas (the cleared image) -/

theorem recoverBits_clean (img : Img) (n : Nat) :
    ∀ v ∈ recoverBits (clean_lsb img).pix n, v = 0 := by
  intro v hv
  rw [recoverBits_eq_take_map] at hv
  have hcc : (clean_lsb img).pix =
      img.pix.map (fun p => (p.1, p.2.1, 2 * (p.2.2 / 2))) := rfl
  rw [hcc, ← List.map_take, List.map_map] at hv
  obtain ⟨p, -, hp⟩ := List.mem_map.mp hv
  simp only [Function.comp_apply] at hp
  rw [← hp, Nat.and_one_is_mod]
  omega

theorem mem_bits_to_bytes_zero (bits : List Nat) (h : ∀ v ∈ bits, v = 0) :
    ∀ b ∈ bits_to_bytes bits, b = 0 := by
  induction bits using bits_to_bytes.induct with
  | case1 b0 b1 b2 b3 b4 b5 b6 b7 rest ih =>
    intro b hb
    rw [bits_to_bytes] at hb
    rcases List.mem_cons.mp hb with h1 | h1
    · have e0 : b0 = 0 := h b0 (by simp)
      have e1 : b1 = 0 := h b1 (by simp)
      have e2 : b2 = 0 := h b2 (by simp)
      have e3 : b3 = 0 := h b3 (by simp)
      have e4 : b4 = 0 := h b4 (by simp)
      have e5 : b5 = 0 := h b5 (by simp)
      have e6 : b6 = 0 := h b6 (by simp)
      have e7 : b7 = 0 := h b7 (by simp)
      subst h1; omega
    · exact ih (fun v hv => h v (by simp [hv])) b h1
  | case2 bits hne =>
    intro b hb
    rcases bits with _ | ⟨a0, _ | ⟨a1, _ | ⟨a2, _ | ⟨a3, _ | ⟨a4, _ | ⟨a5, _ | ⟨a6, _ | ⟨a7, r⟩⟩⟩⟩⟩⟩⟩⟩
    all_goals first
      | exact absurd rfl (hne a0 a1 a2 a3 a4 a5 a6 a7 r)
      | exact absurd hb (List.not_mem_nil b)

theorem findOcc_sentinel_zero (s : List Nat) (h : ∀ v ∈ s, v = 0) :
    findOcc SENTINEL s = none := by
  induction s with
  | nil => rfl
  | cons b rest ih =>
    have hb : b = 0 := h b (List.mem_cons_self b rest)
    have hne : ¬((b :: rest).take SENTINEL.length = SENTINEL) := by
      intro hc
      have ht : (b :: rest).take SENTINEL.length = b :: rest.take 5 := by
        simp [SENTINEL]
      rw [ht] at hc
      have h36 : b = 36 := by
        have := congrArg List.headI hc
        simpa [SENTINEL] using this
      omega
    unfold findOcc
    rw [if_neg hne, ih (fun v hv => h v (List.mem_cons_of_mem b hv))]
    rfl

/-! ### Unfolding lemmas for the pipeline entry points -/

theorem stego_hide_eq (img : Img) (s k : List Nat) :
    stego_hide img s k =
      if (bytes_to_bits (payloadBytes s k ++ SENTINEL)).length > img.width * img.height
      then Except.error capacityMsg
      else Except.ok { img with
        pix := embedBits (bytes_to_bits (payloadBytes s k ++ SENTINEL)) img.pix } := rfl

theorem stego_extract_eq (img : Img) (password : List Nat) :
    stego_extract img password =
      match findOcc SENTINEL (bits_to_bytes (recoverBits img.pix (4096 * 8))) with
      | some i =>
        (match utf8Decode
            (if password = []
             then (bits_to_bytes (recoverBits img.pix (4096 * 8))).take i
             else xor_cipher ((bits_to_bytes (recoverBits img.pix (4096 * 8))).take i)
               password) with
        | some text => ExtractResult.ok text
        | none => ExtractResult.wrongPassword)
      | none => ExtractResult.noData := rfl

theorem framedBits_length (s k : List Nat) :
    (bytes_to_bits (payloadBytes s k ++ SENTINEL)).length =
      8 * ((payloadBytes s k).length + 6) := by
  rw [length_bytes_to_bits, List.length_append]
  simp [SENTINEL]

/-! ### Claim theorems -/

/-- Claim C3: for every byte sequence `x`,
`bits_to_bytes (bytes_to_bits x) = x` — `bytes_to_bits` emits 8 bits per
byte most-significant-bit first, and `bits_to_bytes` regroups chunks of 8
in order. -/
theorem c3_bit_codec_roundtrip (x : List Nat) (hx : ∀ b ∈ x, b < 256) :
    bits_to_bytes (bytes_to_bits x) = x := by
  have h := bits_to_bytes_bytes_to_bits_append x [] hx
  simpa [show bits_to_bytes [] = [] from rfl] using h

theorem c3_bit_codec_roundtrip_witness :
    bits_to_bytes (bytes_to_bits [0, 65, 170, 255]) = [0, 65, 170, 255] :=
  c3_bit_codec_roundtrip [0, 65, 170, 255] (by decide)

/-- Claim C9 (implicit): for every list of bits that are all 0 or 1 and
whose length is a multiple of 8, `bytes_to_bits (bits_to_bytes bits) = bits`. -/
theorem c9_bit_codec_reverse_roundtrip (bits : List Nat)
    (hb : ∀ v ∈ bits, v ≤ 1) (hlen : bits.length % 8 = 0) :
    bytes_to_bits (bits_to_bytes bits) = bits :=
  bytes_to_bits_bits_to_bytes bits hb hlen

theorem c9_bit_codec_reverse_roundtrip_witness :
    bytes_to_bits (bits_to_bytes [1, 0, 0, 0, 0, 0, 1, 0, 1, 1, 1, 1, 1, 1, 1, 1]) =
      [1, 0, 0, 0, 0, 0, 1, 0, 1, 1, 1, 1, 1, 1, 1, 1] :=
  c9_bit_codec_reverse_roundtrip [1, 0, 0, 0, 0, 0, 1, 0, 1, 1, 1, 1, 1, 1, 1, 1]
    (by decide) (by decide)

/-- Claim C4: the XOR stream cipher is an involution —
`xor_cipher (xor_cipher x k) k = x` for every byte sequence `x` and key
`k` — and the empty key is the identity, `xor_cipher x [] = x`. -/
theorem c4_cipher_involution (x k : List Nat) :
    xor_cipher (xor_cipher x k) k = x ∧ xor_cipher x [] = x :=
  ⟨xor_cipher_invol x k, xor_cipher_empty x⟩

/-- Claim C10 (implicit): the cipher preserves length —
`(xor_cipher data password).length = data.length` for every data and
password, so a ciphered payload needs exactly as much capacity as the
plain one. -/
theorem c10_cipher_length_preservation (data password : List Nat) :
    (xor_cipher data password).length = data.length :=
  xor_cipher_length data password

/-- Claim C6: embedding a bit sequence with `len bits ≤ W*H` writes bit
`i` into the lowest bit of the blue channel of the `i`-th pixel in
row-major order (the rest of the blue value unchanged), never touches red
or green, and leaves every pixel at index `≥ len bits` entirely
unchanged. -/
theorem c6_embed_frame_effect (img : Img) (bits : List Nat) (hwf : img.WF)
    (hlen : bits.length ≤ img.width * img.height)
    (hbits : ∀ v ∈ bits, v ≤ 1) :
    (embedBits bits img.pix).length = img.pix.length ∧
    ∀ i, i < img.pix.length →
      ((embedBits bits img.pix).getD i (0, 0, 0)).1 = (img.pix.getD i (0, 0, 0)).1 ∧
      ((embedBits bits img.pix).getD i (0, 0, 0)).2.1 = (img.pix.getD i (0, 0, 0)).2.1 ∧
      (i < bits.length →
        ((embedBits bits img.pix).getD i (0, 0, 0)).2.2 % 2 = bits.getD i 0 ∧
        ((embedBits bits img.pix).getD i (0, 0, 0)).2.2 / 2 =
          (img.pix.getD i (0, 0, 0)).2.2 / 2) ∧
      (bits.length ≤ i →
        (embedBits bits img.pix).getD i (0, 0, 0) = img.pix.getD i (0, 0, 0)) := by
  refine ⟨embedBits_length bits img.pix, fun i hi => ?_⟩
  by_cases hib : i < bits.length
  · obtain ⟨h1, h2, h3⟩ := embedBits_getD_of_lt bits img.pix i (0, 0, 0) hib hi
    have hbit : bits.getD i 0 ≤ 1 := by
      rw [List.getD_eq_getElem bits 0 hib]
      exact hbits _ (List.getElem_mem hib)
    refine ⟨h1, h2, fun _ => ⟨?_, ?_⟩, fun hle => absurd hib (by omega)⟩
    · rw [h3]; omega
    · rw [h3]; omega
  · have h := embedBits_getD_of_le bits img.pix i (0, 0, 0) (by omega)
    exact ⟨by rw [h], by rw [h], fun hlt => absurd hlt hib, fun _ => h⟩

theorem c6_embed_frame_effect_witness :
    (embedBits [1, 0, 1] (Img.mk 2 2 [(1, 2, 3), (4, 5, 6), (7, 8, 9), (10, 11, 12)]).pix).length
        = (Img.mk 2 2 [(1, 2, 3), (4, 5, 6), (7, 8, 9), (10, 11, 12)]).pix.length ∧
    (((embedBits [1, 0, 1] (Img.mk 2 2 [(1, 2, 3), (4, 5, 6), (7, 8, 9), (10, 11, 12)]).pix).getD 1 (0, 0, 0)).1
        = ((Img.mk 2 2 [(1, 2, 3), (4, 5, 6), (7, 8, 9), (10, 11, 12)]).pix.getD 1 (0, 0, 0)).1 ∧
      ((embedBits [1, 0, 1] (Img.mk 2 2 [(1, 2, 3), (4, 5, 6), (7, 8, 9), (10, 11, 12)]).pix).getD 1 (0, 0, 0)).2.1
        = ((Img.mk 2 2 [(1, 2, 3), (4, 5, 6), (7, 8, 9), (10, 11, 12)]).pix.getD 1 (0, 0, 0)).2.1 ∧
      (1 < ([1, 0, 1] : List Nat).length →
        ((embedBits [1, 0, 1] (Img.mk 2 2 [(1, 2, 3), (4, 5, 6), (7, 8, 9), (10, 11, 12)]).pix).getD 1 (0, 0, 0)).2.2 % 2
            = ([1, 0, 1] : List Nat).getD 1 0 ∧
        ((embedBits [1, 0, 1] (Img.mk 2 2 [(1, 2, 3), (4, 5, 6), (7, 8, 9), (10, 11, 12)]).pix).getD 1 (0, 0, 0)).2.2 / 2
            = ((Img.mk 2 2 [(1, 2, 3), (4, 5, 6), (7, 8, 9), (10, 11, 12)]).pix.getD 1 (0, 0, 0)).2.2 / 2) ∧
      (([1, 0, 1] : List Nat).length ≤ 1 →
        (embedBits [1, 0, 1] (Img.mk 2 2 [(1, 2, 3), (4, 5, 6), (7, 8, 9), (10, 11, 12)]).pix).getD 1 (0, 0, 0)
            = (Img.mk 2 2 [(1, 2, 3), (4, 5, 6), (7, 8, 9), (10, 11, 12)]).pix.getD 1 (0, 0, 0))) :=
  ⟨(c6_embed_frame_effect (Img.mk 2 2 [(1, 2, 3), (4, 5, 6), (7, 8, 9), (10, 11, 12)])
      [1, 0, 1] (by decide) (by decide) (by decide)).1,
   (c6_embed_frame_effect (Img.mk 2 2 [(1, 2, 3), (4, 5, 6), (7, 8, 9), (10, 11, 12)])
      [1, 0, 1] (by decide) (by decide) (by decide)).2 1 (by decide)⟩

/-- Claim C7: the reading phase of `stego_extract` collects exactly
`min (4096 * 8) (W * H)` bits, the `i`-th being the lowest bit of the blue
channel of the `i`-th pixel in row-major order. -/
theorem c7_bounded_recovery (img : Img) (hwf : img.WF) :
    (recoverBits img.pix (4096 * 8)).length = min (4096 * 8) (img.width * img.height) ∧
    ∀ i, i < min (4096 * 8) (img.width * img.height) →
      (recoverBits img.pix (4096 * 8)).getD i 0 = (img.pix.getD i (0, 0, 0)).2.2 % 2 := by
  constructor
  · rw [recoverBits_length, hwf]
  · intro i hi
    refine recoverBits_getD img.pix (4096 * 8) i ?_
    rw [hwf]
    exact hi

theorem c7_bounded_recovery_witness :
    (recoverBits (Img.mk 3 2 [(1, 2, 3), (4, 5, 6), (7, 8, 9), (10, 11, 12), (13, 14, 15), (16, 17, 18)]).pix
        (4096 * 8)).length
      = min (4096 * 8) ((Img.mk 3 2 [(1, 2, 3), (4, 5, 6), (7, 8, 9), (10, 11, 12), (13, 14, 15), (16, 17, 18)]).width
          * (Img.mk 3 2 [(1, 2, 3), (4, 5, 6), (7, 8, 9), (10, 11, 12), (13, 14, 15), (16, 17, 18)]).height) ∧
    (recoverBits (Img.mk 3 2 [(1, 2, 3), (4, 5, 6), (7, 8, 9), (10, 11, 12), (13, 14, 15), (16, 17, 18)]).pix
        (4096 * 8)).getD 4 0
      = ((Img.mk 3 2 [(1, 2, 3), (4, 5, 6), (7, 8, 9), (10, 11, 12), (13, 14, 15), (16, 17, 18)]).pix.getD
          4 (0, 0, 0)).2.2 % 2 :=
  ⟨(c7_bounded_recovery
      (Img.mk 3 2 [(1, 2, 3), (4, 5, 6), (7, 8, 9), (10, 11, 12), (13, 14, 15), (16, 17, 18)]) (by decide)).1,
   (c7_bounded_recovery
      (Img.mk 3 2 [(1, 2, 3), (4, 5, 6), (7, 8, 9), (10, 11, 12), (13, 14, 15), (16, 17, 18)]) (by decide)).2
      4 (by decide)⟩

/-- Claim C2: a payload whose framed bit-length `8 * (len ciphered + 6)`
exactly equals `W * H` is hidden successfully; one more bit than `W * H`
makes `stego_hide` fail with the capacity error, decided before the
embedding loop, so no mutated image is produced or written. -/
theorem c2_capacity_boundary (img : Img) (s k : List Nat) :
    (8 * ((payloadBytes s k).length + 6) = img.width * img.height →
      stego_hide img s k = Except.ok { img with
        pix := embedBits (bytes_to_bits (payloadBytes s k ++ SENTINEL)) img.pix }) ∧
    (img.width * img.height < 8 * ((payloadBytes s k).length + 6) →
      stego_hide img s k = Except.error capacityMsg) := by
  have hbl := framedBits_length s k
  constructor
  · intro he
    rw [stego_hide_eq, if_neg (by omega)]
  · intro hgt
    rw [stego_hide_eq, if_pos (by omega)]

theorem c2_capacity_boundary_witness :
    stego_hide (Img.mk 56 1 (List.replicate 56 (0, 0, 0))) [65] [] =
      Except.ok (Img.mk 56 1
        (embedBits (bytes_to_bits (payloadBytes [65] [] ++ SENTINEL))
          (List.replicate 56 (0, 0, 0)))) ∧
    stego_hide (Img.mk 55 1 (List.replicate 55 (0, 0, 0))) [65] [] =
      Except.error capacityMsg :=
  ⟨(c2_capacity_boundary (Img.mk 56 1 (List.replicate 56 (0, 0, 0))) [65] []).1 (by decide),
   (c2_capacity_boundary (Img.mk 55 1 (List.replicate 55 (0, 0, 0))) [65] []).2 (by decide)⟩

theorem stego_extract_clean (img : Img) (pw : List Nat) :
    stego_extract (clean_lsb img) pw = ExtractResult.noData := by
  rw [stego_extract_eq,
    findOcc_sentinel_zero _ (mem_bits_to_bytes_zero _ (recoverBits_clean img (4096 * 8)))]

/-- Claim C8: when hiding succeeds, running the LSB-clear pass on the
resulting image destroys the payload — extracting from the cleared image
with any password reports the no-hidden-data result. -/
theorem c8_extract_after_clear (img : Img) (s k : List Nat) (out : Img)
    (pw : List Nat) (hok : stego_hide img s k = Except.ok out) :
    stego_extract (clean_lsb out) pw = ExtractResult.noData :=
  stego_extract_clean out pw

theorem c8_extract_after_clear_witness :
    stego_extract (clean_lsb (Img.mk 56 1
      (embedBits (bytes_to_bits (payloadBytes [65] [] ++ SENTINEL))
        (List.replicate 56 (0, 0, 0))))) [49] = ExtractResult.noData :=
  c8_extract_after_clear (Img.mk 56 1 (List.replicate 56 (0, 0, 0))) [65] [] _ [49] rfl

/-- Claim C5: `stego_extract` is total on every carrier image and
password, returning one of exactly three result values — decoded text
when the sentinel occurs in the recovered bytes and the (un-ciphered)
prefix decodes as UTF-8, the wrong-password result when the prefix does
not decode, and the no-hidden-data result exactly when the sentinel does
not occur — never an exception, whatever the password. -/
theorem c5_extract_result_states (img : Img) (password : List Nat) :
    ((∃ t, stego_extract img password = ExtractResult.ok t) ∨
      stego_extract img password = ExtractResult.wrongPassword ∨
      stego_extract img password = ExtractResult.noData) ∧
    (stego_extract img password = ExtractResult.noData ↔
      findOcc SENTINEL (bits_to_bytes (recoverBits img.pix (4096 * 8))) = none) ∧
    (∀ i, findOcc SENTINEL (bits_to_bytes (recoverBits img.pix (4096 * 8))) = some i →
      stego_extract img password =
        match utf8Decode
            (if password = []
             then (bits_to_bytes (recoverBits img.pix (4096 * 8))).take i
             else xor_cipher ((bits_to_bytes (recoverBits img.pix (4096 * 8))).take i)
               password) with
        | some text => ExtractResult.ok text
        | none => ExtractResult.wrongPassword) := by
  rcases hf : findOcc SENTINEL (bits_to_bytes (recoverBits img.pix (4096 * 8))) with _ | i
  · refine ⟨Or.inr (Or.inr ?_), ⟨fun _ => rfl, fun _ => ?_⟩, fun i hi => ?_⟩
    · rw [stego_extract_eq, hf]
    · rw [stego_extract_eq, hf]
    · exact absurd hi (by simp)
  · have hx : stego_extract img password =
        match utf8Decode
            (if password = []
             then (bits_to_bytes (recoverBits img.pix (4096 * 8))).take i
             else xor_cipher ((bits_to_bytes (recoverBits img.pix (4096 * 8))).take i)
               password) with
        | some text => ExtractResult.ok text
        | none => ExtractResult.wrongPassword := by
      rw [stego_extract_eq, hf]
    refine ⟨?_, ⟨fun hc => ?_, fun hc => ?_⟩, fun j hj => ?_⟩
    · rcases hd : utf8Decode
          (if password = []
           then (bits_to_bytes (recoverBits img.pix (4096 * 8))).take i
           else xor_cipher ((bits_to_bytes (recoverBits img.pix (4096 * 8))).take i)
             password) with _ | t
      · refine Or.inr (Or.inl ?_)
        rw [hx, hd]
      · refine Or.inl ⟨t, ?_⟩
        rw [hx, hd]
    · rw [hx] at hc
      rcases hd : utf8Decode
          (if password = []
           then (bits_to_bytes (recoverBits img.pix (4096 * 8))).take i
           else xor_cipher ((bits_to_bytes (recoverBits img.pix (4096 * 8))).take i)
             password) with _ | t <;> rw [hd] at hc <;> exact absurd hc (by simp)
    · exact absurd hc (by simp)
    · have : i = j := by injection hj
      subst this
      exact hx

/-! ### The hide/extract round trip (claim C1) -/

theorem stego_extract_of_findOcc (img : Img) (pw : List Nat) (i : Nat)
    (hf : findOcc SENTINEL (bits_to_bytes (recoverBits img.pix (4096 * 8))) = some i) :
    stego_extract img pw =
      match utf8Decode
          (if pw = []
           then (bits_to_bytes (recoverBits img.pix (4096 * 8))).take i
           else xor_cipher ((bits_to_bytes (recoverBits img.pix (4096 * 8))).take i) pw) with
      | some text => ExtractResult.ok text
      | none => ExtractResult.wrongPassword := by
  rw [stego_extract_eq, hf]

theorem findOcc_framed (P Z : List Nat)
    (hsent : ∀ j, j < P.length → ((P ++ SENTINEL).drop j).take 6 ≠ SENTINEL) :
    findOcc SENTINEL ((P ++ SENTINEL) ++ Z) = some P.length := by
  apply findOcc_eq_some SENTINEL ((P ++ SENTINEL) ++ Z) (by simp [SENTINEL]) P.length
  · rw [List.append_assoc]
    have hd : (P ++ (SENTINEL ++ Z)).drop P.length = SENTINEL ++ Z :=
      List.drop_left P (SENTINEL ++ Z)
    rw [hd]
    exact List.take_left SENTINEL Z
  · intro j hj
    have h1 : (((P ++ SENTINEL) ++ Z).drop j).take SENTINEL.length =
        ((P ++ SENTINEL).drop j).take SENTINEL.length :=
      take_drop_append_of_le (P ++ SENTINEL) Z j SENTINEL.length
        (by rw [List.length_append]; simp [SENTINEL]; omega)
    rw [h1]
    exact hsent j hj

/-- Claim C1, amended: hide/extract symmetry holds whenever, beyond the
capacity bound `8 * (len ciphered + 6) ≤ W * H` the claim states, (a) the
framed payload also fits the fixed 4096-byte recovery window of
`stego_extract`, and (b) the sentinel does not occur in the ciphered
payload followed by the sentinel before its final position.  Without (a)
the sentinel is never read back; without (b) `stego_extract` truncates at
an earlier occurrence — see the counterexample. -/
theorem c1_hide_extract_symmetry (img : Img) (s k : List Nat) (hwf : img.WF)
    (hs : ∀ c ∈ s, ValidScalar c) (hk : ∀ c ∈ k, ValidScalar c)
    (hcap : 8 * ((payloadBytes s k).length + 6) ≤ img.width * img.height)
    (hwin : (payloadBytes s k).length + 6 ≤ 4096)
    (hsent : ∀ j, j < (payloadBytes s k).length →
      ((payloadBytes s k ++ SENTINEL).drop j).take 6 ≠ SENTINEL) :
    ∃ out, stego_hide img s k = Except.ok out ∧
      stego_extract out k = ExtractResult.ok s := by
  have hbl := framedBits_length s k
  have hb01 := mem_bytes_to_bits_le_one (payloadBytes s k ++ SENTINEL)
  have hF := framed_lt_256 s k hs hk
  refine ⟨{ img with
    pix := embedBits (bytes_to_bits (payloadBytes s k ++ SENTINEL)) img.pix }, ?_, ?_⟩
  · rw [stego_hide_eq, if_neg (by omega)]
  · have hpix : ({ img with
        pix := embedBits (bytes_to_bits (payloadBytes s k ++ SENTINEL)) img.pix } : Img).pix =
        embedBits (bytes_to_bits (payloadBytes s k ++ SENTINEL)) img.pix := rfl
    have hrec : recoverBits
        (embedBits (bytes_to_bits (payloadBytes s k ++ SENTINEL)) img.pix) (4096 * 8) =
        bytes_to_bits (payloadBytes s k ++ SENTINEL) ++
          ((img.pix.drop (bytes_to_bits (payloadBytes s k ++ SENTINEL)).length).map
            (fun p => p.2.2 &&& 1)).take
            (4096 * 8 - (bytes_to_bits (payloadBytes s k ++ SENTINEL)).length) := by
      rw [recoverBits_eq_take_map, List.map_take, map_lsb_embedBits _ _ hb01,
        List.take_of_length_le (l := bytes_to_bits (payloadBytes s k ++ SENTINEL))
          (i := img.pix.length) (by rw [hwf]; omega),
        List.take_append_eq_append_take,
        List.take_of_length_le (l := bytes_to_bits (payloadBytes s k ++ SENTINEL))
          (i := 4096 * 8) (by omega)]
    have hocc : findOcc SENTINEL (bits_to_bytes (recoverBits ({ img with
        pix := embedBits (bytes_to_bits (payloadBytes s k ++ SENTINEL)) img.pix } : Img).pix
          (4096 * 8))) = some (payloadBytes s k).length := by
      rw [hpix, hrec, bits_to_bytes_bytes_to_bits_append _ _ hF]
      exact findOcc_framed (payloadBytes s k) _ hsent
    rw [stego_extract_of_findOcc _ k (payloadBytes s k).length hocc]
    have htake : (bits_to_bytes (recoverBits ({ img with
        pix := embedBits (bytes_to_bits (payloadBytes s k ++ SENTINEL)) img.pix } : Img).pix
          (4096 * 8))).take (payloadBytes s k).length = payloadBytes s k := by
      rw [hpix, hrec, bits_to_bytes_bytes_to_bits_append _ _ hF, List.append_assoc]
      exact List.take_left _ _
    rw [htake]
    by_cases hke : k = []
    · rw [if_pos hke,
        show payloadBytes s k = utf8Encode s from by rw [hke, payloadBytes, if_pos rfl],
        utf8Decode_utf8Encode s hs]
    · rw [if_neg hke,
        show payloadBytes s k = xor_cipher (utf8Encode s) k from by
          rw [payloadBytes, if_neg hke],
        xor_cipher_invol, utf8Decode_utf8Encode s hs]

theorem c1_hide_extract_symmetry_witness :
    ∃ out, stego_hide (Img.mk 56 1 (List.replicate 56 (0, 0, 0))) [65] [] = Except.ok out ∧
      stego_extract out [] = ExtractResult.ok [65] :=
  c1_hide_extract_symmetry (Img.mk 56 1 (List.replicate 56 (0, 0, 0))) [65] []
    (by decide) (by decide) (by decide) (by decide) (by decide) (by decide)

/-- Claim C1 as frozen is false: hiding the secret `"$STOP$"` (whose
UTF-8 bytes are the sentinel itself) with the empty key in a 96 × 1 image
satisfies the capacity bound `8 * (len ciphered + 6) = 96 ≤ W * H`, yet
extraction splits at the first sentinel occurrence — index 0 — and
returns the empty text, not the secret. -/
theorem c1_counterexample :
    8 * ((payloadBytes [36, 83, 84, 79, 80, 36] []).length + 6) ≤
      (Img.mk 96 1 (List.replicate 96 (0, 0, 0))).width *
        (Img.mk 96 1 (List.replicate 96 (0, 0, 0))).height ∧
    ∃ out, stego_hide (Img.mk 96 1 (List.replicate 96 (0, 0, 0)))
        [36, 83, 84, 79, 80, 36] [] = Except.ok out ∧
      stego_extract out [] = ExtractResult.ok [] ∧
      stego_extract out [] ≠ ExtractResult.ok [36, 83, 84, 79, 80, 36] := by
  refine ⟨by decide, ⟨Img.mk 96 1
    (embedBits (bytes_to_bits (payloadBytes [36, 83, 84, 79, 80, 36] [] ++ SENTINEL))
      (List.replicate 96 (0, 0, 0))), rfl, by decide, by decide⟩⟩

end ImageProtector
